import Mathlib

/-! # dsme `validatorlistener.c`: parser and listener life cycle

A shallow embedding of `modules/validatorlistener.c`.

* A valid `const char*` is modelled by the list of the characters that stand
  before its terminating NUL; the end of the list is the NUL.  A pointer into
  the same string is the suffix that starts at the pointee.
* `strndup`, `strdup` and `malloc` are taken to succeed, so an allocated
  string is its content and a `char*` that may be null is an `Option`.
* Global and function-static variables are fields of `Listener`; calls into
  glib, libc and the dsme core are recorded as a list of `Event`s.
-/

namespace ValidatorListener

/-! ## libc helpers used by the parser -/

/-- The C string content type: the characters before the terminating NUL. -/
abbrev CStr := List Char

/-- Offset of the first occurrence of `c` in `s`, as `strchr(s, c) - s`;
`none` when `strchr` returns the null pointer. -/
def strchr : CStr → Char → Option Nat
  | [], _ => none
  | x :: xs, c => if x = c then some 0 else (strchr xs c).map (· + 1)

/-- The copy made by `strndup(s, n)`: at most `n` characters of `s`. -/
def strndup (s : CStr) (n : Nat) : CStr := s.take n

/-- The test `isblank((unsigned char)c)` in the C locale: space or tab. -/
def isblank (c : Char) : Bool := c == ' ' || c == '\t'

/-! ## The parser -/

/-- The result of a successful `parse_validator_line`: the two allocated
strings and the new value of `*msg`. -/
structure Line where
  key : CStr
  text : CStr
  msg : CStr
  deriving DecidableEq, Repr

/-- Embedding of `parse_validator_line`.  `none` is `parsed == false` (then
`*msg`, `*key` and `*text` are left alone); `some l` is `parsed == true`. -/
def parse_validator_line (msg : CStr) : Option Line :=
  match strchr msg ':' with
  | none => none
  | some n =>
    -- got the key
    let key := strndup msg n
    -- `p` points at the colon; `do ++p while (*p && *p != '\n' && isblank(*p))`
    let p := (msg.drop n).drop 1
    let p := p.dropWhile (fun c => c != '\n' && isblank c)
    -- got the beginning of text; now determine where it ends
    let t := p
    let p := t.dropWhile (fun c => c != '\n')
    let text := strndup t (t.length - p.length)
    -- move to the next line if necessary, and save the parsing point
    let p := match p with
      | '\n' :: rest => rest
      | _ => p
    some ⟨key, text, p⟩

/-- The `while` loop of `parse_validator_message`, with the two output
cells `*component` and `*details` as accumulators (`none` is the null
pointer).  One unit of fuel is spent per evaluation of the loop condition;
`none` is returned only when the fuel runs out. -/
def parse_loop : Nat → CStr → Option CStr → Option CStr →
    Option (Option CStr × Option CStr)
  | 0, _, _, _ => none
  | fuel + 1, p, component, details =>
    if p = [] then some (component, details)
    else
      match parse_validator_line p with
      | none => some (component, details)
      | some l =>
        if l.key = "Process".toList then
          parse_loop fuel l.msg (some l.text) details
        else if l.key = "File".toList then
          parse_loop fuel l.msg component (some l.text)
        else
          parse_loop fuel l.msg component details

/-- The sentinel stored for a field that no line has set. -/
def unknown : CStr := "(unknown)".toList

/-- Embedding of `parse_validator_message` with an explicit fuel for its
loop: the pair `(*component, *details)` on return. -/
def parse_validator_message_fuel (fuel : Nat) (msg : CStr) :
    Option (CStr × CStr) :=
  (parse_loop fuel msg none none).map
    (fun r => (r.1.getD unknown, r.2.getD unknown))

/-- Embedding of `parse_validator_message` on a valid string `msg` (so the
null test `p &&` of the loop condition holds throughout); the loop condition
is evaluated at most `msg.length + 1` times (see `parse_loop_eq`). -/
def parse_validator_message (msg : CStr) : Option (CStr × CStr) :=
  parse_validator_message_fuel (msg.length + 1) msg

/-! ## Messages, effects and the listener state -/

/-- Modelled from the spec: the reason codes of `malf.h`, which is not part
of the sources at hand; the module only uses `DSME_MALF_SECURITY`, the fixed
"security" reason of the escalation broadcast. -/
inductive DSME_MALF_REASON where
  | DSME_MALF_SOFTWARE
  | DSME_MALF_HARDWARE
  | DSME_MALF_SECURITY
  deriving DecidableEq, Repr

/-- Modelled from the spec: the fields of the "enter malfunction" message
that `go_to_malf` fills in (the message type is declared in `malf.h`). -/
structure DSM_MSGTYPE_ENTER_MALF where
  reason : DSME_MALF_REASON
  component : CStr
  deriving DecidableEq, Repr

/-- The syslog priorities the module logs with. -/
inductive LogPriority where
  | LOG_DEBUG
  | LOG_ERR
  | LOG_CRIT
  deriving DecidableEq, Repr

/-- A call that leaves the module, in program order. -/
inductive Event where
  | dsme_log (priority : LogPriority) (fmt : String)
  | broadcast_internally_with_extra (msg : DSM_MSGTYPE_ENTER_MALF)
      (extra_size : Nat) (extra : CStr)
  | g_io_add_watch (channel : Nat)
  | g_io_channel_set_close_on_unref (channel : Nat) (do_close : Bool)
  | g_io_channel_unref (channel : Nat)
  | close (fd : Int)
  deriving DecidableEq, Repr

/-- The file-scope variables `validator_fd` and `channel` (a pointer, `0`
when null) and the statics of `handle_validator_message`: the flag
`msg_initialized` and the receive buffer that `msg.msg_iov` points to.  The
buffer has `NLMSG_SPACE(VALIDATOR_MAX_PAYLOAD)` bytes, a header followed by a
payload area of `VALIDATOR_MAX_PAYLOAD` bytes; `nlmsg_data` holds the bytes
of the payload area up to the last one ever written, and every byte of the
area after them is still the zero of the `memset`. -/
structure Listener where
  validator_fd : Int
  channel : Nat
  msg_initialized : Bool
  nlmsg_data : CStr
  deriving DecidableEq, Repr

/-- The state at program start: `validator_fd = -1`, `channel = 0`,
`msg_initialized = false`. -/
def Listener.initial : Listener := ⟨-1, 0, false, []⟩

/-- Bits of glib `GIOCondition`. -/
def G_IO_IN : Nat := 1

/-- Bit of glib `GIOCondition` for an error on the descriptor. -/
def G_IO_ERR : Nat := 8

/-- Bit of glib `GIOCondition` for a hang-up. -/
def G_IO_HUP : Nat := 16

/-- The aligned size of `struct nlmsghdr`, which is `NLMSG_LENGTH(0)`. -/
def NLMSG_HDRLEN : Nat := 16

/-- The payload capacity of the receive buffer, from the `#define`. -/
def VALIDATOR_MAX_PAYLOAD : Nat := 4096

/-- The NUL character. -/
def NUL : Char := Char.ofNat 0

/-- The payload area after `recvmsg` has stored a datagram with payload
bytes `d` into the buffer whose payload area held `buf`: at most
`VALIDATOR_MAX_PAYLOAD` bytes are written over the front, the bytes behind
them stay. -/
def recv_into (buf d : List Char) : List Char :=
  let w := d.take VALIDATOR_MAX_PAYLOAD
  w ++ buf.drop w.length

/-- A value of the local `struct nlmsghdr* nlh`: null, or the address of the
receive buffer obtained from `malloc`. -/
inductive Nlh where
  | null
  | buffer
  deriving DecidableEq, Repr

/-- Ways in which a call does not return. -/
inductive Fault where
  | invalid_read (addr : Nat)
  | read_past_buffer
  | out_of_fuel
  deriving DecidableEq, Repr

/-- How a call ends: it returns a value, or it does not return. -/
inductive Outcome (α : Type) where
  | returned (v : α)
  | fault (f : Fault)
  deriving DecidableEq, Repr

/-- The string that `parse_validator_message` is handed as
`NLMSG_DATA(nlh)`.  With `nlh` at the buffer it is the payload area read up
to its first NUL; when the whole area of `VALIDATOR_MAX_PAYLOAD` bytes holds
no NUL, the parser reads past the end of the allocation.  With `nlh` null the
argument is the non-null address `NLMSG_LENGTH(0)`, which the loop condition
`p && *p` dereferences. -/
def NLMSG_DATA (s : Listener) : Nlh → Outcome CStr
  | Nlh.buffer =>
    let text := s.nlmsg_data.takeWhile (fun c => c != NUL)
    if text.length < VALIDATOR_MAX_PAYLOAD then Outcome.returned text
    else Outcome.fault Fault.read_past_buffer
  | Nlh.null => Outcome.fault (Fault.invalid_read NLMSG_HDRLEN)

/-! ## Escalation and the life cycle -/

/-- Embedding of `go_to_malf`. -/
def go_to_malf (component details : CStr) : List Event :=
  let malf : DSM_MSGTYPE_ENTER_MALF :=
    ⟨DSME_MALF_REASON.DSME_MALF_SECURITY, component⟩
  [Event.broadcast_internally_with_extra malf (details.length + 1) details]

/-- Embedding of `stop_listening_to_validator`: the new state and the calls
made. -/
def stop_listening_to_validator (s : Listener) : Listener × List Event :=
  if s.validator_fd ≠ -1 then
    (⟨-1, 0, s.msg_initialized, s.nlmsg_data⟩,
      [Event.dsme_log LogPriority.LOG_DEBUG "closing Validator socket",
       Event.g_io_channel_set_close_on_unref s.channel false,
       Event.g_io_channel_unref s.channel,
       Event.close s.validator_fd])
  else (s, [])

/-- The `G_IO_IN` branch of `handle_validator_message`.  `recvmsg` is the
outcome of the receive: `none` when `recvmsg` returns `-1`, `some d` when it
stored a datagram with payload bytes `d` into the buffer that `msg.msg_iov`
points to. -/
def handle_input (s : Listener) (recvmsg : Option (List Char)) :
    Outcome (Listener × List Event) :=
  -- `struct nlmsghdr* nlh = 0;` is an automatic variable
  let nlh := Nlh.null
  let init := !s.msg_initialized
  -- `malloc`, `memset` to zero, and the `iovec` set to the new buffer
  let nlh := if init then Nlh.buffer else nlh
  let s : Listener :=
    if init then ⟨s.validator_fd, s.channel, true, []⟩ else s
  match recvmsg with
  | none =>
    Outcome.returned (s, [Event.dsme_log LogPriority.LOG_ERR
      "Error receiving Validator message"])
  | some d =>
    let s : Listener :=
      ⟨s.validator_fd, s.channel, s.msg_initialized, recv_into s.nlmsg_data d⟩
    match NLMSG_DATA s nlh with
    | Outcome.fault f => Outcome.fault f
    | Outcome.returned text =>
      match parse_validator_message text with
      | none => Outcome.fault Fault.out_of_fuel
      | some (component, details) =>
        Outcome.returned (s,
          Event.dsme_log LogPriority.LOG_CRIT "Security MALF: %s %s" ::
            go_to_malf component details)

/-- Embedding of `handle_validator_message`: on return, the new state, the
calls made and the returned `keep_listening`. -/
def handle_validator_message (s : Listener) (condition : Nat)
    (recvmsg : Option (List Char)) : Outcome (Listener × List Event × Bool) :=
  let ev0 := [Event.dsme_log LogPriority.LOG_DEBUG
    "Activity on Validator socket"]
  match (if condition &&& G_IO_IN ≠ 0 then handle_input s recvmsg
         else Outcome.returned (s, [])) with
  | Outcome.fault f => Outcome.fault f
  | Outcome.returned (s, ev1) =>
    if condition &&& (G_IO_ERR ||| G_IO_HUP) ≠ 0 then
      let r := stop_listening_to_validator s
      Outcome.returned (r.1, ev0 ++ ev1 ++
        [Event.dsme_log LogPriority.LOG_ERR "ERR or HUP on Validator socket"]
        ++ r.2, false)
    else Outcome.returned (s, ev0 ++ ev1, true)

/-- The results of the four acquisition calls of
`start_listening_to_validator`, each consulted only if it is reached:
`socket` and `bind` return `-1` on failure, `g_io_channel_unix_new` returns a
pointer (`0` when null) and `g_io_add_watch` a source id (`0` on failure). -/
structure Acquisition where
  socket : Int
  bind : Int
  g_io_channel_unix_new : Nat
  g_io_add_watch : Nat
  deriving DecidableEq, Repr

/-- Embedding of `start_listening_to_validator`: the new state, the calls
made and the returned flag. -/
def start_listening_to_validator (s : Listener) (a : Acquisition) :
    Listener × List Event × Bool :=
  let s : Listener := ⟨a.socket, s.channel, s.msg_initialized, s.nlmsg_data⟩
  if s.validator_fd = -1 then
    (s, [Event.dsme_log LogPriority.LOG_ERR "Validator socket: %s"], false)
  else if a.bind = -1 then
    -- close_and_fail
    (⟨-1, s.channel, s.msg_initialized, s.nlmsg_data⟩,
      [Event.dsme_log LogPriority.LOG_ERR "Validator socket bind: %s",
       Event.close s.validator_fd], false)
  else
    let s : Listener :=
      ⟨s.validator_fd, a.g_io_channel_unix_new, s.msg_initialized,
        s.nlmsg_data⟩
    if s.channel = 0 then
      (⟨-1, s.channel, s.msg_initialized, s.nlmsg_data⟩,
        [Event.close s.validator_fd], false)
    else
      let ev := [Event.g_io_add_watch s.channel,
        Event.g_io_channel_unref s.channel]
      if a.g_io_add_watch = 0 then
        (⟨-1, s.channel, s.msg_initialized, s.nlmsg_data⟩,
          ev ++ [Event.close s.validator_fd], false)
      else (s, ev, true)

/-- Embedding of `module_init`: it returns nothing; the new state and the
calls made. -/
def module_init (s : Listener) (a : Acquisition) : Listener × List Event :=
  let r := start_listening_to_validator s a
  (r.1,
    [Event.dsme_log LogPriority.LOG_DEBUG "validatorlistener.so loaded"]
      ++ r.2.1 ++
      (if !r.2.2 then
        [Event.dsme_log LogPriority.LOG_CRIT
          "failed to start listening to Validator"]
       else []))

/-! ## Observations used to state the properties -/

/-- The `(key, text)` pairs that the loop of `parse_validator_message`
obtains from its successive calls of `parse_validator_line`, in order. -/
def parsed_lines : Nat → CStr → List (CStr × CStr)
  | 0, _ => []
  | fuel + 1, p =>
    if p = [] then []
    else
      match parse_validator_line p with
      | none => []
      | some l => (l.key, l.text) :: parsed_lines fuel l.msg

/-- The cell of key `k` after the pairs have been stored in turn, `acc`
being its content before: the text of the last pair whose key is `k`. -/
def last_text (k : CStr) (acc : Option CStr) : List (CStr × CStr) → Option CStr
  | [] => acc
  | kt :: rest => last_text k (if kt.1 = k then some kt.2 else acc) rest

/-- A line as the specification writes it: `key ++ ":" ++ blanks ++ text ++
"\n"`. -/
structure SpecLine where
  key : CStr
  blanks : CStr
  text : CStr
  deriving DecidableEq, Repr

/-- The characters of a specification line. -/
def SpecLine.render (l : SpecLine) : CStr :=
  l.key ++ ':' :: (l.blanks ++ (l.text ++ ['\n']))

/-- The input made of the given lines. -/
def render : List SpecLine → CStr
  | [] => []
  | l :: ls => l.render ++ render ls

/-- Well-formedness of a line: the key has no colon and no newline, the
blanks are spaces and tabs, the text has no newline and does not begin with a
space or a tab. -/
def SpecLine.well_formed (l : SpecLine) : Prop :=
  ':' ∉ l.key ∧ '\n' ∉ l.key ∧ (∀ c ∈ l.blanks, c = ' ' ∨ c = '\t') ∧
    '\n' ∉ l.text ∧ l.text.head? ≠ some ' ' ∧ l.text.head? ≠ some '\t'

instance (l : SpecLine) : Decidable l.well_formed := by
  unfold SpecLine.well_formed
  infer_instance

/-- The text of the last line whose key is exactly `k`, if there is one. -/
def spec_field (k : CStr) : List SpecLine → Option CStr
  | [] => none
  | l :: ls =>
    match spec_field k ls with
    | some t => some t
    | none => if l.key = k then some l.text else none

/-- A text as the specification allows it on a line: no newline in it, and
no space or tab at its start. -/
def text_ok (t : CStr) : Prop :=
  '\n' ∉ t ∧ t.head? ≠ some ' ' ∧ t.head? ≠ some '\t'

instance (t : CStr) : Decidable (text_ok t) := by
  unfold text_ok
  infer_instance

/-- The input `msg` holds the key `k`, a colon, blanks, and then `v` up to
the end of the line: `v` is the text that stands after that key. -/
def text_after_key (k msg v : CStr) : Prop :=
  ∃ pre blanks rest : CStr,
    msg = pre ++ (k ++ ':' :: (blanks ++ (v ++ rest))) ∧
    (∀ c ∈ blanks, c = ' ' ∨ c = '\t') ∧
    '\n' ∉ v ∧ v.head? ≠ some ' ' ∧ v.head? ≠ some '\t' ∧
    (rest = [] ∨ ∃ r, rest = '\n' :: r)

/-- The closes among the calls made. -/
def closes (ev : List Event) : List Event :=
  ev.filter (fun e =>
    match e with
    | Event.close _ => true
    | _ => false)

/-- The broadcasts among the calls made. -/
def broadcasts (ev : List Event) : List Event :=
  ev.filter (fun e =>
    match e with
    | Event.broadcast_internally_with_extra _ _ _ => true
    | _ => false)

/-! ## Facts about the libc helpers -/

theorem strchr_eq_none {s : CStr} {c : Char} (h : c ∉ s) : strchr s c = none := by
  induction s with
  | nil => rfl
  | cons x xs ih =>
    have hx : ¬ x = c := fun e => h (by simp [e])
    have hxs : c ∉ xs := fun e => h (List.mem_cons_of_mem _ e)
    simp [strchr, hx, ih hxs]

theorem strchr_append {pre : CStr} {c : Char} (suf : CStr) (h : c ∉ pre) :
    strchr (pre ++ c :: suf) c = some pre.length := by
  induction pre with
  | nil => simp [strchr]
  | cons x xs ih =>
    have hx : ¬ x = c := fun e => h (by simp [e])
    have hxs : c ∉ xs := fun e => h (List.mem_cons_of_mem _ e)
    simp [strchr, hx, ih hxs]

theorem strchr_some {s : CStr} {c : Char} {n : Nat} (h : strchr s c = some n) :
    c ∉ s.take n ∧ s = s.take n ++ c :: s.drop (n + 1) := by
  induction s generalizing n with
  | nil => simp [strchr] at h
  | cons x xs ih =>
    by_cases hx : x = c
    · simp [strchr, hx] at h
      subst h
      simp [hx]
    · cases hm : strchr xs c with
      | none => simp [strchr, hx, hm] at h
      | some m =>
        simp only [strchr, hx, if_false, hm, Option.map_some', Option.some.injEq] at h
        subst h
        obtain ⟨h1, h2⟩ := ih hm
        refine ⟨?_, ?_⟩
        · simp only [List.take_succ_cons, List.mem_cons, not_or]
          exact ⟨fun e => hx e.symm, h1⟩
        · simp only [List.take_succ_cons, List.drop_succ_cons, List.cons_append]
          rw [← h2]

theorem strchr_mem {s : CStr} {c : Char} (h : c ∈ s) : ∃ n, strchr s c = some n := by
  cases hs : strchr s c with
  | some n => exact ⟨n, rfl⟩
  | none =>
    exfalso
    induction s with
    | nil => simp at h
    | cons x xs ih =>
      by_cases hx : x = c
      · simp [strchr, hx] at hs
      · cases hm : strchr xs c with
        | some m => simp [strchr, hx, hm] at hs
        | none =>
          rcases List.mem_cons.1 h with e | e
          · exact hx e.symm
          · exact ih e hm

theorem take_length_sub_dropWhile (q : Char → Bool) (t : CStr) :
    strndup t (t.length - (t.dropWhile q).length) = t.takeWhile q := by
  have h := List.takeWhile_append_dropWhile q t
  have hl : (t.takeWhile q).length + (t.dropWhile q).length = t.length := by
    have := congrArg List.length h
    rw [List.length_append] at this
    exact this
  have hk : t.length - (t.dropWhile q).length = (t.takeWhile q).length := by omega
  have e : List.take (t.takeWhile q).length (t.takeWhile q ++ t.dropWhile q) = t.takeWhile q :=
    List.take_left' rfl
  rw [h] at e
  rw [strndup, hk, e]

theorem dropWhile_ne_newline (t : CStr) :
    t.dropWhile (fun c => c != '\n') = [] ∨
      ∃ rest, t.dropWhile (fun c => c != '\n') = '\n' :: rest := by
  induction t with
  | nil => exact Or.inl rfl
  | cons x xs ih =>
    by_cases hx : x = '\n'
    · subst hx
      exact Or.inr ⟨xs, by simp [List.dropWhile]⟩
    · have e : List.dropWhile (fun c => c != '\n') (x :: xs) =
          List.dropWhile (fun c => c != '\n') xs := by
        simp [List.dropWhile_cons, hx]
      rw [e]
      exact ih

/-- The line reader in closed form: key, text and rest in terms of `take`,
`takeWhile` and `dropWhile`. -/
theorem parse_validator_line_some {msg : CStr} {n : Nat} (h : strchr msg ':' = some n) :
    parse_validator_line msg = some
      ⟨msg.take n,
       ((msg.drop (n + 1)).dropWhile (fun c => c != '\n' && isblank c)).takeWhile
         (fun c => c != '\n'),
       (((msg.drop (n + 1)).dropWhile (fun c => c != '\n' && isblank c)).dropWhile
         (fun c => c != '\n')).drop 1⟩ := by
  simp only [parse_validator_line, h, List.drop_drop, take_length_sub_dropWhile]
  generalize ((msg.drop (n + 1)).dropWhile (fun c => c != '\n' && isblank c)) = t
  congr 2
  · rcases dropWhile_ne_newline t with e | ⟨rest, e⟩
    · rw [e]
      rfl
    · rw [e]
      rfl

theorem parse_validator_line_none {msg : CStr} (h : strchr msg ':' = none) :
    parse_validator_line msg = none := by
  simp [parse_validator_line, h]

/-- Each successful call consumes a non-empty part of the string and stops
inside it. -/
theorem parse_validator_line_consumes {msg : CStr} {l : Line}
    (h : parse_validator_line msg = some l) :
    ∃ consumed : CStr, consumed ≠ [] ∧ msg = consumed ++ l.msg := by
  cases hs : strchr msg ':' with
  | none => rw [parse_validator_line_none hs] at h; cases h
  | some n =>
    rw [parse_validator_line_some hs] at h
    obtain ⟨_, h2⟩ := strchr_some hs
    injection h with h
    subst h
    simp only
    have s1 : (((msg.drop (n + 1)).dropWhile (fun c => c != '\n' && isblank c)).dropWhile
         (fun c => c != '\n')).drop 1 <:+ msg.drop (n + 1) :=
      ((List.drop_suffix _ _).trans (List.dropWhile_suffix _)).trans (List.dropWhile_suffix _)
    obtain ⟨mid, hmid⟩ := s1
    refine ⟨msg.take n ++ ':' :: mid, by simp, ?_⟩
    conv_lhs => rw [h2, ← hmid]
    simp

theorem parse_validator_line_shorter {msg : CStr} {l : Line}
    (h : parse_validator_line msg = some l) : l.msg.length < msg.length := by
  obtain ⟨c, hc, e⟩ := parse_validator_line_consumes h
  have : 0 < c.length := List.length_pos.2 hc
  rw [e, List.length_append]
  omega

/-! ## The loop of `parse_validator_message` -/

theorem parsed_lines_nil (fuel : Nat) : parsed_lines fuel [] = [] := by
  cases fuel <;> simp [parsed_lines]

theorem parsed_lines_fuel (f1 f2 : Nat) (p : CStr) (h1 : p.length < f1) (h2 : p.length < f2) :
    parsed_lines f1 p = parsed_lines f2 p := by
  induction f1 generalizing f2 p with
  | zero => omega
  | succ f1 ih =>
    cases f2 with
    | zero => omega
    | succ f2 =>
      by_cases hp : p = []
      · simp [parsed_lines, hp]
      · cases hl : parse_validator_line p with
        | none => simp [parsed_lines, hp, hl]
        | some l =>
          have := parse_validator_line_shorter hl
          simp only [parsed_lines, hp, hl, if_false]
          rw [ih f2 l.msg (by omega) (by omega)]

theorem process_ne_file : ¬ "Process".toList = "File".toList := by decide

/-- With enough fuel the loop ends, and its two cells hold the text of the
last line read with key `Process`, respectively `File`. -/
theorem parse_loop_eq (fuel : Nat) (p : CStr) (c d : Option CStr) (h : p.length < fuel) :
    parse_loop fuel p c d =
      some (last_text "Process".toList c (parsed_lines fuel p),
            last_text "File".toList d (parsed_lines fuel p)) := by
  induction fuel generalizing p c d with
  | zero => omega
  | succ fuel ih =>
    by_cases hp : p = []
    · simp [parse_loop, parsed_lines, hp, last_text]
    · cases hl : parse_validator_line p with
      | none => simp [parse_loop, parsed_lines, hp, hl, last_text]
      | some l =>
        have hlt := parse_validator_line_shorter hl
        have hf : l.msg.length < fuel := by omega
        simp only [parse_loop, parsed_lines, hp, hl, if_false, last_text]
        by_cases hk : l.key = "Process".toList
        · have hk2 : ¬ l.key = "File".toList := fun e => process_ne_file (hk.symm.trans e)
          simp only [if_pos hk, if_neg hk2]
          exact ih l.msg _ _ hf
        · by_cases hk2 : l.key = "File".toList
          · simp only [if_neg hk, if_pos hk2]
            exact ih l.msg _ _ hf
          · simp only [if_neg hk, if_neg hk2]
            exact ih l.msg _ _ hf

theorem parse_validator_message_fuel_eq (fuel : Nat) (msg : CStr) (h : msg.length < fuel) :
    parse_validator_message_fuel fuel msg =
      some ((last_text "Process".toList none (parsed_lines (msg.length + 1) msg)).getD unknown,
            (last_text "File".toList none (parsed_lines (msg.length + 1) msg)).getD unknown) := by
  rw [parse_validator_message_fuel, parse_loop_eq fuel msg none none h,
    parsed_lines_fuel fuel (msg.length + 1) msg h (by omega)]
  rfl

theorem parse_validator_message_eq (msg : CStr) :
    parse_validator_message msg =
      some ((last_text "Process".toList none (parsed_lines (msg.length + 1) msg)).getD unknown,
            (last_text "File".toList none (parsed_lines (msg.length + 1) msg)).getD unknown) :=
  parse_validator_message_fuel_eq (msg.length + 1) msg (by omega)

/-! ## Well-formed lines -/

theorem SpecLine.render_ne_nil (l : SpecLine) (rest : CStr) : l.render ++ rest ≠ [] := by
  cases hk : l.key <;> simp [SpecLine.render, hk]

theorem dropWhile_blank_text (text rest : CStr) (h1 : text.head? ≠ some ' ')
    (h2 : text.head? ≠ some '\t') :
    (text ++ '\n' :: rest).dropWhile (fun c => c != '\n' && isblank c) =
      text ++ '\n' :: rest := by
  cases text with
  | nil => simp [List.dropWhile]
  | cons x xs =>
    have hx1 : ¬ x = ' ' := fun e => h1 (by simp [e])
    have hx2 : ¬ x = '\t' := fun e => h2 (by simp [e])
    have hq : (x != '\n' && isblank x) = false := by simp [isblank, hx1, hx2]
    rw [List.cons_append, List.dropWhile_cons]
    simp only [hq]
    rfl

/-- On a well-formed line the reader returns the key and the text of the
line and stops right after its newline. -/
theorem parse_validator_line_render (l : SpecLine) (rest : CStr) (h : l.well_formed) :
    parse_validator_line (l.render ++ rest) = some ⟨l.key, l.text, rest⟩ := by
  obtain ⟨hk, _, hb, ht, h1, h2⟩ := h
  have e : l.render ++ rest = l.key ++ ':' :: (l.blanks ++ (l.text ++ '\n' :: rest)) := by
    simp [SpecLine.render]
  have hs : strchr (l.render ++ rest) ':' = some l.key.length := by
    rw [e]
    exact strchr_append _ hk
  rw [parse_validator_line_some hs, e]
  have hd : List.drop (l.key.length + 1) (l.key ++ ':' :: (l.blanks ++ (l.text ++ '\n' :: rest))) =
      l.blanks ++ (l.text ++ '\n' :: rest) := by
    have : l.key ++ ':' :: (l.blanks ++ (l.text ++ '\n' :: rest)) =
        (l.key ++ [':']) ++ (l.blanks ++ (l.text ++ '\n' :: rest)) := by simp
    rw [this]
    exact List.drop_left' (by simp)
  have hblank : ∀ a ∈ l.blanks, (fun c => c != '\n' && isblank c) a = true := by
    intro a ha
    rcases hb a ha with e | e <;> subst e <;> decide
  have hnl : ∀ a ∈ l.text, (fun c => c != '\n') a = true := by
    intro a ha
    have : a ≠ '\n' := fun e => ht (e ▸ ha)
    simpa using this
  rw [hd, List.dropWhile_append_of_pos hblank, dropWhile_blank_text _ _ h1 h2,
    List.takeWhile_append_of_pos hnl, List.dropWhile_append_of_pos hnl]
  simp [List.takeWhile, List.dropWhile]

theorem render_length (ls : List SpecLine) : ls.length ≤ (render ls).length := by
  induction ls with
  | nil => simp [render]
  | cons l ls ih =>
    simp only [render, SpecLine.render, List.length_append, List.length_cons]
    omega

theorem parsed_lines_render (fuel : Nat) (ls : List SpecLine) (hf : ls.length < fuel)
    (h : ∀ l ∈ ls, l.well_formed) :
    parsed_lines fuel (render ls) = ls.map (fun l => (l.key, l.text)) := by
  induction ls generalizing fuel with
  | nil => simp [render, parsed_lines_nil]
  | cons l ls ih =>
    cases fuel with
    | zero => simp at hf
    | succ fuel =>
      have hl := parse_validator_line_render l (render ls) (h l (List.mem_cons_self _ _))
      simp only [render, parsed_lines, SpecLine.render_ne_nil, if_false, hl, List.map_cons]
      rw [ih fuel (by simpa using hf) (fun x hx => h x (List.mem_cons_of_mem _ hx))]

theorem last_text_map (k : CStr) (acc : Option CStr) (ls : List SpecLine) :
    last_text k acc (ls.map (fun l => (l.key, l.text))) =
      match spec_field k ls with
      | some t => some t
      | none => acc := by
  induction ls generalizing acc with
  | nil => rfl
  | cons l ls ih =>
    simp only [List.map_cons, last_text, spec_field]
    rw [ih]
    cases spec_field k ls with
    | some t => rfl
    | none => by_cases hk : l.key = k <;> simp [hk]

/-- The parser on an input made of well-formed lines. -/
theorem parse_validator_message_render (ls : List SpecLine) (h : ∀ l ∈ ls, l.well_formed) :
    parse_validator_message (render ls) =
      some ((spec_field "Process".toList ls).getD unknown,
            (spec_field "File".toList ls).getD unknown) := by
  rw [parse_validator_message_eq,
    parsed_lines_render _ ls (Nat.lt_succ_of_le (render_length ls)) h,
    last_text_map, last_text_map]
  cases spec_field "Process".toList ls <;> cases spec_field "File".toList ls <;> rfl

/-! ## A missing final newline -/

theorem dropWhile_append_stop (q : Char → Bool) (a : Char) (ha : q a = false) (t : CStr) :
    (t ++ [a]).dropWhile q = t.dropWhile q ++ [a] := by
  induction t with
  | nil => simp [List.dropWhile, ha]
  | cons x xs ih =>
    cases hx : q x with
    | true =>
      rw [List.cons_append, List.dropWhile_cons_of_pos hx, List.dropWhile_cons_of_pos hx, ih]
    | false =>
      have hn : ¬ q x = true := by simp [hx]
      rw [List.cons_append, List.dropWhile_cons_of_neg hn, List.dropWhile_cons_of_neg hn]
      rfl

theorem takeWhile_append_stop (q : Char → Bool) (a : Char) (ha : q a = false) (t : CStr) :
    (t ++ [a]).takeWhile q = t.takeWhile q := by
  induction t with
  | nil => simp [List.takeWhile, ha]
  | cons x xs ih =>
    cases hx : q x with
    | true =>
      rw [List.cons_append, List.takeWhile_cons_of_pos hx, List.takeWhile_cons_of_pos hx, ih]
    | false =>
      have hn : ¬ q x = true := by simp [hx]
      rw [List.cons_append, List.takeWhile_cons_of_neg hn, List.takeWhile_cons_of_neg hn]

theorem strchr_length {s : CStr} {c : Char} {n : Nat} (h : strchr s c = some n) :
    n < s.length := by
  obtain ⟨_, h2⟩ := strchr_some h
  have := congrArg List.length h2
  simp only [List.length_append, List.length_cons, List.length_take, List.length_drop] at this
  omega

/-- The line reader on a string with a newline appended: the same key and
text, and the rest either keeps the appended newline or both rests are
empty. -/
theorem parse_validator_line_append_newline {s : CStr} {l : Line}
    (h : parse_validator_line s = some l) :
    parse_validator_line (s ++ ['\n']) = some ⟨l.key, l.text, l.msg ++ ['\n']⟩ ∨
      (parse_validator_line (s ++ ['\n']) = some ⟨l.key, l.text, []⟩ ∧ l.msg = []) := by
  cases hs : strchr s ':' with
  | none => rw [parse_validator_line_none hs] at h; cases h
  | some n =>
    have hn := strchr_length hs
    obtain ⟨h1, h2⟩ := strchr_some hs
    have hs2 : strchr (s ++ ['\n']) ':' = some n := by
      have e : s ++ ['\n'] = s.take n ++ ':' :: (s.drop (n + 1) ++ ['\n']) := by
        conv_lhs => rw [h2]
        simp
      rw [e]
      have := strchr_append (s.drop (n + 1) ++ ['\n']) h1
      rw [this]
      simp
      omega
    rw [parse_validator_line_some hs] at h
    injection h with h
    subst h
    rw [parse_validator_line_some hs2]
    have hq1 : (fun c => c != '\n' && isblank c) '\n' = false := by decide
    have hq2 : (fun c => c != '\n') '\n' = false := by decide
    have ht : List.take n (s ++ ['\n']) = List.take n s :=
      List.take_append_of_le_length (by omega)
    have hd : List.drop (n + 1) (s ++ ['\n']) = List.drop (n + 1) s ++ ['\n'] :=
      List.drop_append_of_le_length (by omega)
    rw [ht, hd, dropWhile_append_stop (fun c => c != '\n' && isblank c) '\n' hq1]
    generalize (List.dropWhile (fun c => c != '\n' && isblank c) (List.drop (n + 1) s)) = t
    rw [dropWhile_append_stop (fun c => c != '\n') '\n' hq2,
      takeWhile_append_stop (fun c => c != '\n') '\n' hq2]
    rcases dropWhile_ne_newline t with e | ⟨rest, e⟩
    · right
      rw [e]
      exact ⟨rfl, rfl⟩
    · left
      rw [e]
      rfl

theorem strchr_append_none {s : CStr} (h : strchr s ':' = none) :
    strchr (s ++ ['\n']) ':' = none := by
  apply strchr_eq_none
  intro hm
  rcases List.mem_append.1 hm with e | e
  · obtain ⟨n, hn⟩ := strchr_mem e
    rw [h] at hn
    cases hn
  · simp at e

theorem parsed_lines_append_newline (fuel : Nat) (s : CStr) (h : s.length < fuel) :
    parsed_lines (fuel + 1) (s ++ ['\n']) = parsed_lines fuel s := by
  induction fuel generalizing s with
  | zero => omega
  | succ fuel ih =>
    by_cases hp : s = []
    · subst hp
      have : parse_validator_line ['\n'] = none := by decide
      simp [parsed_lines, this]
    · have hp2 : ¬ s ++ ['\n'] = [] := by simp
      cases hl : parse_validator_line s with
      | none =>
        have hs : strchr s ':' = none := by
          cases hs : strchr s ':' with
          | none => rfl
          | some n => rw [parse_validator_line_some hs] at hl; cases hl
        have := parse_validator_line_none (strchr_append_none hs)
        simp [parsed_lines, hp, this, hl]
      | some l =>
        have hlt := parse_validator_line_shorter hl
        rcases parse_validator_line_append_newline hl with e | ⟨e, e0⟩
        · rw [parsed_lines, if_neg hp2, e]
          simp only
          rw [ih l.msg (by omega)]
          conv_rhs => rw [parsed_lines, if_neg hp, hl]
        · rw [parsed_lines, if_neg hp2, e]
          simp only
          conv_rhs => rw [parsed_lines, if_neg hp, hl]
          simp only
          rw [e0, parsed_lines_nil, parsed_lines_nil]

/-- Appending a newline to any input leaves the result of the parser
unchanged. -/
theorem parse_validator_message_append_newline (s : CStr) :
    parse_validator_message (s ++ ['\n']) = parse_validator_message s := by
  rw [parse_validator_message_eq, parse_validator_message_eq]
  have e : (s ++ ['\n']).length + 1 = (s.length + 1) + 1 := by simp
  rw [e, parsed_lines_append_newline (s.length + 1) s (by omega)]

/-! ## Properties of the parser -/

theorem spec_field_skip (k : CStr) (l : SpecLine) (hk : l.key ≠ k) (ls₁ ls₂ : List SpecLine) :
    spec_field k (ls₁ ++ l :: ls₂) = spec_field k (ls₁ ++ ls₂) := by
  induction ls₁ with
  | nil =>
    simp only [List.nil_append, spec_field, if_neg hk]
    cases spec_field k ls₂ <;> rfl
  | cons x xs ih => simp [spec_field, ih]

theorem SpecLine.well_formed_mk (k b t : CStr) (h1 : ':' ∉ k) (h2 : '\n' ∉ k)
    (h3 : ∀ c ∈ b, c = ' ' ∨ c = '\t') (ht : text_ok t) :
    SpecLine.well_formed ⟨k, b, t⟩ :=
  ⟨h1, h2, h3, ht.1, ht.2.1, ht.2.2⟩

theorem mem_insert_wf {l : SpecLine} {ls₁ ls₂ : List SpecLine}
    (h : ∀ x ∈ ls₁ ++ l :: ls₂, x.well_formed) : ∀ x ∈ ls₁ ++ ls₂, x.well_formed := by
  intro x hx
  apply h x
  rcases List.mem_append.1 hx with e | e
  · exact List.mem_append_left _ e
  · exact List.mem_append_right _ (List.mem_cons_of_mem _ e)

theorem getD_unknown_eq_nil (o : Option CStr) : o.getD unknown = [] ↔ o = some [] := by
  cases o with
  | none => simp [unknown]
  | some t => simp

/-- C1: on an input made only of well-formed lines the parser returns as
component the text of the last line whose key is exactly `Process`, and as
details the text of the last line whose key is exactly `File`, with
`(unknown)` for a field that has no such line; a line with another key does
not change the result.  In particular `Process: P`, `File: F` gives `P` and
`F`, a repeated `Process` gives the last one, an unrecognised key is ignored
and the empty input gives `(unknown)` twice. -/
theorem parse_well_formed_lines :
    (∀ ls : List SpecLine, (∀ l ∈ ls, l.well_formed) →
      parse_validator_message (render ls) =
        some ((spec_field "Process".toList ls).getD unknown,
              (spec_field "File".toList ls).getD unknown)) ∧
    (∀ (ls₁ ls₂ : List SpecLine) (l : SpecLine), (∀ x ∈ ls₁ ++ l :: ls₂, x.well_formed) →
      l.key ≠ "Process".toList → l.key ≠ "File".toList →
      parse_validator_message (render (ls₁ ++ l :: ls₂)) =
        parse_validator_message (render (ls₁ ++ ls₂))) ∧
    (∀ P F : CStr, text_ok P → text_ok F →
      parse_validator_message
        ("Process: ".toList ++ P ++ "\nFile: ".toList ++ F ++ "\n".toList) = some (P, F)) ∧
    (∀ A B : CStr, text_ok A → text_ok B →
      parse_validator_message
        ("Process: ".toList ++ A ++ "\nProcess: ".toList ++ B ++ "\n".toList) =
          some (B, unknown)) ∧
    (∀ A : CStr, text_ok A →
      parse_validator_message ("Foo: bar\nProcess: ".toList ++ A ++ "\n".toList) =
        some (A, unknown)) ∧
    parse_validator_message [] = some (unknown, unknown) := by
  refine ⟨parse_validator_message_render, ?_, ?_, ?_, ?_, by decide⟩
  · intro ls₁ ls₂ l h h1 h2
    rw [parse_validator_message_render _ h, parse_validator_message_render _ (mem_insert_wf h),
      spec_field_skip _ l h1, spec_field_skip _ l h2]
  · intro P F hP hF
    have h := parse_validator_message_render
      [⟨"Process".toList, " ".toList, P⟩, ⟨"File".toList, " ".toList, F⟩]
      (by
        intro l hl
        simp only [List.mem_cons, List.mem_singleton, List.not_mem_nil, or_false] at hl
        rcases hl with e | e <;> subst e
        · exact SpecLine.well_formed_mk _ _ _ (by decide) (by decide) (by decide) hP
        · exact SpecLine.well_formed_mk _ _ _ (by decide) (by decide) (by decide) hF)
    have e : render [⟨"Process".toList, " ".toList, P⟩, ⟨"File".toList, " ".toList, F⟩] =
        "Process: ".toList ++ P ++ "\nFile: ".toList ++ F ++ "\n".toList := by
      simp [render, SpecLine.render]
    rw [e] at h
    rw [h]
    simp [spec_field]
  · intro A B hA hB
    have h := parse_validator_message_render
      [⟨"Process".toList, " ".toList, A⟩, ⟨"Process".toList, " ".toList, B⟩]
      (by
        intro l hl
        simp only [List.mem_cons, List.mem_singleton, List.not_mem_nil, or_false] at hl
        rcases hl with e | e <;> subst e
        · exact SpecLine.well_formed_mk _ _ _ (by decide) (by decide) (by decide) hA
        · exact SpecLine.well_formed_mk _ _ _ (by decide) (by decide) (by decide) hB)
    have e : render [⟨"Process".toList, " ".toList, A⟩, ⟨"Process".toList, " ".toList, B⟩] =
        "Process: ".toList ++ A ++ "\nProcess: ".toList ++ B ++ "\n".toList := by
      simp [render, SpecLine.render]
    rw [e] at h
    rw [h]
    simp [spec_field]
  · intro A hA
    have h := parse_validator_message_render
      [⟨"Foo".toList, " ".toList, "bar".toList⟩, ⟨"Process".toList, " ".toList, A⟩]
      (by
        intro l hl
        simp only [List.mem_cons, List.mem_singleton, List.not_mem_nil, or_false] at hl
        rcases hl with e | e <;> subst e
        · decide
        · exact SpecLine.well_formed_mk _ _ _ (by decide) (by decide) (by decide) hA)
    have e : render [⟨"Foo".toList, " ".toList, "bar".toList⟩,
        ⟨"Process".toList, " ".toList, A⟩] =
        "Foo: bar\nProcess: ".toList ++ A ++ "\n".toList := by
      simp [render, SpecLine.render]
    rw [e] at h
    rw [h]
    simp [spec_field]

theorem parse_well_formed_lines_witness :
    parse_validator_message
        (render [⟨"Foo".toList, "\t ".toList, "bar: baz".toList⟩,
          ⟨"Process".toList, [], "init".toList⟩, ⟨"File".toList, " ".toList, []⟩,
          ⟨"Process".toList, "  ".toList, "evil binary".toList⟩]) =
      some ("evil binary".toList, []) :=
  parse_well_formed_lines.1 _ (by decide)

theorem parsed_lines_render_append (fuel : Nat) (ls : List SpecLine) (tail : CStr)
    (hf : ls.length < fuel) (h : ∀ l ∈ ls, l.well_formed) (ht : ':' ∉ tail) :
    parsed_lines fuel (render ls ++ tail) = ls.map (fun l => (l.key, l.text)) := by
  induction ls generalizing fuel with
  | nil =>
    cases fuel with
    | zero => simp at hf
    | succ fuel =>
      simp only [render, List.nil_append, parsed_lines, List.map_nil,
        parse_validator_line_none (strchr_eq_none ht)]
      split <;> rfl
  | cons l ls ih =>
    cases fuel with
    | zero => simp at hf
    | succ fuel =>
      have hl := parse_validator_line_render l (render ls ++ tail) (h l (List.mem_cons_self _ _))
      simp only [render, List.append_assoc, parsed_lines, SpecLine.render_ne_nil, if_false, hl,
        List.map_cons]
      rw [ih fuel (by simpa using hf) (fun x hx => h x (List.mem_cons_of_mem _ hx))]

/-- When nothing after the well-formed lines has a colon, the parse stops
there: the rest of the input does not change the result. -/
theorem parse_stops_without_colon (ls : List SpecLine) (tail : CStr)
    (h : ∀ l ∈ ls, l.well_formed) (ht : ':' ∉ tail) :
    parse_validator_message (render ls ++ tail) = parse_validator_message (render ls) := by
  have hlen : ls.length < (render ls ++ tail).length + 1 := by
    have := render_length ls
    simp only [List.length_append]
    omega
  rw [parse_validator_message_eq, parse_validator_message_eq,
    parsed_lines_render_append _ ls tail hlen h ht,
    parsed_lines_render _ ls (Nat.lt_succ_of_le (render_length ls)) h]

/-- C2: the key search of `parse_validator_line` runs past the end of the
line.  For the input `garbage`, newline, `Process: evil`, newline,
`File: /bin/evil`, newline (no well-formed line, then a line without colon,
then a remainder) the details are taken from the remainder, whereas the
input without that line and remainder gives `(unknown)`. -/
theorem parse_key_spans_lines :
    parse_validator_line ("garbage".toList ++ '\n' :: "Process: evil\nFile: /bin/evil\n".toList) =
        some ⟨"garbage\nProcess".toList, "evil".toList, "File: /bin/evil\n".toList⟩ ∧
      parse_validator_message
          ("garbage".toList ++ '\n' :: "Process: evil\nFile: /bin/evil\n".toList) =
        some (unknown, "/bin/evil".toList) ∧
      parse_validator_message [] = some (unknown, unknown) := by
  decide

/-- C3, as stated, fails: a `Process` line with nothing after the colon
gives an empty component, and a `File` line that ends after a blank gives
empty details. -/
theorem parse_empty_text :
    parse_validator_message "Process:\n".toList = some ([], unknown) ∧
      parse_validator_message "File: ".toList = some (unknown, []) := by
  decide

theorem dropWhile_head_false (q : Char → Bool) (l : List Char) (x : Char) (xs : List Char)
    (h : l.dropWhile q = x :: xs) : q x = false := by
  induction l with
  | nil => simp at h
  | cons y ys ih =>
    cases hy : q y with
    | true =>
      rw [List.dropWhile_cons_of_pos hy] at h
      exact ih h
    | false =>
      have hn : ¬ q y = true := by simp [hy]
      rw [List.dropWhile_cons_of_neg hn] at h
      injection h with h1 _
      rw [← h1]
      exact hy

theorem mem_takeWhile_sat (q : Char → Bool) (l : List Char) (c : Char)
    (h : c ∈ l.takeWhile q) : q c = true :=
  List.mem_takeWhile_imp h

theorem blank_of_skipped {c : Char} (h : (c != '\n' && isblank c) = true) :
    c = ' ' ∨ c = '\t' := by
  rw [Bool.and_eq_true] at h
  have h2 := h.2
  simpa [isblank] using h2

theorem not_blank_of_kept {c : Char} (h1 : (c != '\n' && isblank c) = false)
    (h2 : (c != '\n') = true) : c ≠ ' ' ∧ c ≠ '\t' := by
  rw [h2, Bool.true_and] at h1
  constructor
  · intro e
    subst e
    exact absurd h1 (by decide)
  · intro e
    subst e
    exact absurd h1 (by decide)

/-- What one call of the line reader takes from the string: the key, the
colon, the blanks, the text, and then the end of the string or a newline. -/
theorem parse_validator_line_shape {p : CStr} {l : Line} (h : parse_validator_line p = some l) :
    ∃ blanks rest : CStr,
      p = l.key ++ ':' :: (blanks ++ (l.text ++ rest)) ∧
      (∀ c ∈ blanks, c = ' ' ∨ c = '\t') ∧
      '\n' ∉ l.text ∧ l.text.head? ≠ some ' ' ∧ l.text.head? ≠ some '\t' ∧
      (rest = [] ∨ ∃ r, rest = '\n' :: r) := by
  cases hs : strchr p ':' with
  | none => rw [parse_validator_line_none hs] at h; cases h
  | some n =>
    rw [parse_validator_line_some hs] at h
    obtain ⟨_, h2⟩ := strchr_some hs
    injection h with h
    subst h
    simp only
    have e1 := List.takeWhile_append_dropWhile (fun c => c != '\n' && isblank c)
      (p.drop (n + 1))
    have e2 := List.takeWhile_append_dropWhile (fun c => c != '\n')
      ((p.drop (n + 1)).dropWhile (fun c => c != '\n' && isblank c))
    have hhead : ∀ c, (((p.drop (n + 1)).dropWhile (fun c => c != '\n' && isblank c)).takeWhile
        (fun c => c != '\n')).head? = some c → c ≠ ' ' ∧ c ≠ '\t' := by
      intro c hc
      cases ht : (p.drop (n + 1)).dropWhile (fun c => c != '\n' && isblank c) with
      | nil => rw [ht] at hc; simp at hc
      | cons x xs =>
        have hq := dropWhile_head_false _ _ x xs ht
        rw [ht] at hc
        cases hx : (x != '\n') with
        | false =>
          simp [List.takeWhile_cons, hx] at hc
        | true =>
          have hxc : x = c := by simpa [List.takeWhile_cons, hx] using hc
          subst hxc
          exact not_blank_of_kept hq hx
    refine ⟨(p.drop (n + 1)).takeWhile (fun c => c != '\n' && isblank c),
      ((p.drop (n + 1)).dropWhile (fun c => c != '\n' && isblank c)).dropWhile
        (fun c => c != '\n'), ?_, ?_, ?_, ?_, ?_, dropWhile_ne_newline _⟩
    · rw [e2, e1]
      exact h2
    · intro c hc
      have hq := mem_takeWhile_sat (fun c => c != '\n' && isblank c) _ c hc
      exact blank_of_skipped hq
    · intro hc
      have hq := mem_takeWhile_sat (fun c => c != '\n') _ '\n' hc
      exact absurd hq (by decide)
    · intro hc
      exact (hhead _ hc).1 rfl
    · intro hc
      exact (hhead _ hc).2 rfl

/-- Every pair that the loop reads stands in the input: its key, a colon,
blanks, and its text up to the end of the line. -/
theorem parsed_lines_in_input (fuel : Nat) (p k t : CStr) (h : (k, t) ∈ parsed_lines fuel p) :
    text_after_key k p t := by
  induction fuel generalizing p with
  | zero => simp [parsed_lines] at h
  | succ fuel ih =>
    by_cases hp : p = []
    · simp [parsed_lines, hp] at h
    · cases hl : parse_validator_line p with
      | none => simp [parsed_lines, hp, hl] at h
      | some l =>
        simp only [parsed_lines, hp, hl, if_false, List.mem_cons, Prod.mk.injEq] at h
        rcases h with ⟨hk, ht⟩ | h
        · obtain ⟨blanks, rest, e, hb, hn, h1, h2, hr⟩ := parse_validator_line_shape hl
          subst hk ht
          exact ⟨[], blanks, rest, by simpa using e, hb, hn, h1, h2, hr⟩
        · obtain ⟨pre, blanks, rest, e, hb, hn, h1, h2, hr⟩ := ih l.msg h
          obtain ⟨consumed, _, ec⟩ := parse_validator_line_consumes hl
          refine ⟨consumed ++ pre, blanks, rest, ?_, hb, hn, h1, h2, hr⟩
          rw [ec, e, List.append_assoc]

theorem last_text_cases (k : CStr) (acc : Option CStr) (lines : List (CStr × CStr)) :
    last_text k acc lines = acc ∨
      ∃ v, last_text k acc lines = some v ∧ (k, v) ∈ lines := by
  induction lines generalizing acc with
  | nil => exact Or.inl rfl
  | cons kt rest ih =>
    rcases ih (if kt.1 = k then some kt.2 else acc) with e | ⟨v, e, hm⟩
    · by_cases hk : kt.1 = k
      · right
        refine ⟨kt.2, ?_, ?_⟩
        · rw [last_text, e, if_pos hk]
        · rw [← hk]
          exact List.mem_cons_self _ _
      · left
        rw [last_text, e, if_neg hk]
    · right
      exact ⟨v, by rw [last_text, e], List.mem_cons_of_mem _ hm⟩

theorem text_after_key_occurs {k msg v : CStr} (h : text_after_key k msg v) :
    (k ++ [':']) <:+: msg := by
  obtain ⟨pre, blanks, rest, e, _⟩ := h
  exact ⟨pre, blanks ++ (v ++ rest), by rw [e]; simp⟩

/-- A field returned by the parser is the sentinel or a text that stands in
the input after its key. -/
theorem field_cases (k msg : CStr) :
    (last_text k none (parsed_lines (msg.length + 1) msg)).getD unknown = unknown ∨
      text_after_key k msg ((last_text k none (parsed_lines (msg.length + 1) msg)).getD unknown) := by
  rcases last_text_cases k none (parsed_lines (msg.length + 1) msg) with e | ⟨v, e, hm⟩
  · left
    rw [e]
    rfl
  · right
    rw [e]
    exact parsed_lines_in_input _ _ _ _ hm

theorem unknown_ne_nil : unknown ≠ [] := by decide

/-- C3, amended: for every input both strings are returned (neither is a
null pointer), and each is either the sentinel `(unknown)` or the text that
stands in the input after its key and a colon, blanks skipped, up to the end
of the line.  A field whose key and colon occur nowhere in the input is
`(unknown)`, and a returned string is empty only if the input holds its key
and a colon followed by nothing but blanks up to a newline or the end of the
input.  On an input of well-formed lines a field is `(unknown)` when no line
has its key, and it is empty exactly when the last line with its key has an
empty text. -/
theorem parse_fields_defined :
    (∀ msg : CStr, ∃ component details : CStr,
      parse_validator_message msg = some (component, details) ∧
      (component = unknown ∨ text_after_key "Process".toList msg component) ∧
      (details = unknown ∨ text_after_key "File".toList msg details) ∧
      (¬ "Process:".toList <:+: msg → component = unknown) ∧
      (¬ "File:".toList <:+: msg → details = unknown) ∧
      (component = [] → text_after_key "Process".toList msg []) ∧
      (details = [] → text_after_key "File".toList msg [])) ∧
    (∀ ls : List SpecLine, (∀ l ∈ ls, l.well_formed) →
      ∃ component details : CStr,
        parse_validator_message (render ls) = some (component, details) ∧
        (spec_field "Process".toList ls = none → component = unknown) ∧
        (spec_field "File".toList ls = none → details = unknown) ∧
        (component = [] ↔ spec_field "Process".toList ls = some []) ∧
        (details = [] ↔ spec_field "File".toList ls = some [])) := by
  refine ⟨?_, ?_⟩
  · intro msg
    have hc := field_cases "Process".toList msg
    have hd := field_cases "File".toList msg
    refine ⟨_, _, parse_validator_message_eq msg, hc, hd, ?_, ?_, ?_, ?_⟩
    · intro hn
      rcases hc with e | e
      · exact e
      · exact absurd (text_after_key_occurs e) hn
    · intro hn
      rcases hd with e | e
      · exact e
      · exact absurd (text_after_key_occurs e) hn
    · intro h0
      rcases hc with e | e
      · exact absurd (e.symm.trans h0) unknown_ne_nil
      · rw [h0] at e
        exact e
    · intro h0
      rcases hd with e | e
      · exact absurd (e.symm.trans h0) unknown_ne_nil
      · rw [h0] at e
        exact e
  · intro ls h
    refine ⟨_, _, parse_validator_message_render ls h, ?_, ?_,
      getD_unknown_eq_nil _, getD_unknown_eq_nil _⟩
    · intro e
      rw [e]
      rfl
    · intro e
      rw [e]
      rfl

theorem parse_fields_defined_witness :
    ∃ component details : CStr,
      parse_validator_message
          (render [⟨"Process".toList, " ".toList, "init".toList⟩,
            ⟨"Process".toList, "\t".toList, []⟩]) = some (component, details) ∧
      (spec_field "Process".toList
          [⟨"Process".toList, " ".toList, "init".toList⟩,
            ⟨"Process".toList, "\t".toList, []⟩] = none → component = unknown) ∧
      (spec_field "File".toList
          [⟨"Process".toList, " ".toList, "init".toList⟩,
            ⟨"Process".toList, "\t".toList, []⟩] = none → details = unknown) ∧
      (component = [] ↔
        spec_field "Process".toList
          [⟨"Process".toList, " ".toList, "init".toList⟩,
            ⟨"Process".toList, "\t".toList, []⟩] = some []) ∧
      (details = [] ↔
        spec_field "File".toList
          [⟨"Process".toList, " ".toList, "init".toList⟩,
            ⟨"Process".toList, "\t".toList, []⟩] = some []) :=
  parse_fields_defined.2 _ (by decide)

/-- C4: for an input that does not end in a newline, the parser returns the
same component and details as for the input with a newline appended; for
`Process: A` the component is `A` and the details are `(unknown)`. -/
theorem parse_missing_final_newline :
    (∀ s : CStr, s.getLast? ≠ some '\n' →
      (∃ r, parse_validator_message s = some r) ∧
        parse_validator_message s = parse_validator_message (s ++ "\n".toList)) ∧
    parse_validator_message "Process: A".toList = some ("A".toList, unknown) := by
  refine ⟨fun s _ => ⟨⟨_, parse_validator_message_eq s⟩, ?_⟩, by decide⟩
  exact (parse_validator_message_append_newline s).symm

theorem parse_missing_final_newline_witness :
    (∃ r, parse_validator_message "Process: A\nFile: /bin/a".toList = some r) ∧
      parse_validator_message "Process: A\nFile: /bin/a".toList =
        parse_validator_message ("Process: A\nFile: /bin/a".toList ++ "\n".toList) :=
  parse_missing_final_newline.1 "Process: A\nFile: /bin/a".toList (by decide)

/-- C9: for every input the parser ends and returns a pair of strings, the
same for every fuel above the length of the input, so that there is no error
outcome and the result is a function of the text alone; and each successful
call of `parse_validator_line` consumes at least one character and leaves a
position inside the string. -/
theorem parse_always_succeeds :
    (∀ msg : CStr, ∃ r : CStr × CStr,
      parse_validator_message msg = some r ∧
        ∀ fuel, msg.length < fuel → parse_validator_message_fuel fuel msg = some r) ∧
    (∀ (msg : CStr) (l : Line), parse_validator_line msg = some l →
      ∃ consumed : CStr, consumed ≠ [] ∧ msg = consumed ++ l.msg) :=
  ⟨fun msg => ⟨_, parse_validator_message_eq msg,
      fun fuel h => parse_validator_message_fuel_eq fuel msg h⟩,
    fun _ _ h => parse_validator_line_consumes h⟩

theorem parse_always_succeeds_witness :
    ∃ consumed : CStr, consumed ≠ [] ∧ "key: text\nrest".toList = consumed ++ "rest".toList :=
  parse_always_succeeds.2 "key: text\nrest".toList
    ⟨"key".toList, "text".toList, "rest".toList⟩ (by decide)

/-! ## Properties of the listener -/

theorem takeWhile_take (q : Char → Bool) (l : List Char) (n : Nat)
    (h : (l.takeWhile q).length < n) : (l.take n).takeWhile q = l.takeWhile q := by
  induction l generalizing n with
  | nil => simp
  | cons x xs ih =>
    cases n with
    | zero => omega
    | succ n =>
      cases hx : q x with
      | false => simp [List.takeWhile, hx]
      | true =>
        rw [List.takeWhile_cons_of_pos hx] at h
        rw [List.take_succ_cons, List.takeWhile_cons_of_pos hx, List.takeWhile_cons_of_pos hx,
          ih n (by simpa using h)]

theorem recv_into_nil (d : List Char) : recv_into [] d = d.take VALIDATOR_MAX_PAYLOAD := by
  simp [recv_into]

/-- The first `G_IO_IN` branch with a successful receive of a payload whose
text fits the buffer with its NUL: the buffer is allocated, the text is
parsed and escalated. -/
theorem handle_input_fresh (s : Listener) (m : List Char) (h : s.msg_initialized = false)
    (hfit : (m.takeWhile (fun c => c != NUL)).length < VALIDATOR_MAX_PAYLOAD) :
    ∃ component details : CStr,
      parse_validator_message (m.takeWhile (fun c => c != NUL)) = some (component, details) ∧
      handle_input s (some m) = Outcome.returned
        (⟨s.validator_fd, s.channel, true, recv_into [] m⟩,
          Event.dsme_log LogPriority.LOG_CRIT "Security MALF: %s %s" ::
            go_to_malf component details) := by
  have hp := parse_validator_message_eq (m.takeWhile (fun c => c != NUL))
  refine ⟨_, _, hp, ?_⟩
  have ht : (recv_into [] m).takeWhile (fun c => c != NUL) = m.takeWhile (fun c => c != NUL) := by
    rw [recv_into_nil]
    exact takeWhile_take _ m _ hfit
  simp only [handle_input, h, Bool.not_false, if_true, NLMSG_DATA, ht, if_pos hfit, hp]

/-- The first `G_IO_IN` branch with a successful receive of a payload that
fills the payload area and has no NUL: the parser reads past the buffer. -/
theorem handle_input_overrun (s : Listener) (m : List Char) (h : s.msg_initialized = false)
    (hn : NUL ∉ m) (hl : VALIDATOR_MAX_PAYLOAD ≤ m.length) :
    handle_input s (some m) = Outcome.fault Fault.read_past_buffer := by
  have hall : ∀ x ∈ m.take VALIDATOR_MAX_PAYLOAD, (fun c => c != NUL) x = true := by
    intro x hx
    have : x ≠ NUL := fun e => hn (e ▸ List.mem_of_mem_take hx)
    simpa using this
  have ht : (recv_into [] m).takeWhile (fun c => c != NUL) = m.take VALIDATOR_MAX_PAYLOAD := by
    rw [recv_into_nil]
    exact List.takeWhile_eq_self_iff.2 hall
  have hlen : ¬ (m.take VALIDATOR_MAX_PAYLOAD).length < VALIDATOR_MAX_PAYLOAD := by
    rw [List.length_take]
    omega
  simp only [handle_input, h, Bool.not_false, if_true, NLMSG_DATA, ht, if_neg hlen]

/-- A later `G_IO_IN` branch with a successful receive: `nlh` is null and
the parser is handed an address that holds no object. -/
theorem handle_input_initialized (s : Listener) (m : List Char) (h : s.msg_initialized = true) :
    handle_input s (some m) = Outcome.fault (Fault.invalid_read NLMSG_HDRLEN) := by
  simp [handle_input, h, NLMSG_DATA]

theorem handle_input_failed (s : Listener) :
    handle_input s none = Outcome.returned
      (⟨s.validator_fd, s.channel, true, if s.msg_initialized then s.nlmsg_data else []⟩,
        [Event.dsme_log LogPriority.LOG_ERR "Error receiving Validator message"]) := by
  cases h : s.msg_initialized <;> simp [handle_input, h]
  cases s
  simp_all

/-- The `G_IO_IN` branch leaves the descriptor and the channel alone. -/
theorem handle_input_state (s s2 : Listener) (recvmsg : Option (List Char)) (ev : List Event)
    (h : handle_input s recvmsg = Outcome.returned (s2, ev)) :
    s2.validator_fd = s.validator_fd ∧ s2.channel = s.channel := by
  cases recvmsg with
  | none =>
    rw [handle_input_failed] at h
    injection h with h
    injection h with h1 _
    subst h1
    exact ⟨rfl, rfl⟩
  | some m =>
    cases hm : s.msg_initialized with
    | true =>
      rw [handle_input_initialized s m hm] at h
      cases h
    | false =>
      simp only [handle_input, hm, Bool.not_false, if_true] at h
      split at h
      · cases h
      · split at h
        · cases h
        · injection h with h
          injection h with h1 _
          subst h1
          exact ⟨rfl, rfl⟩

theorem broadcasts_stop (s : Listener) : broadcasts (stop_listening_to_validator s).2 = [] := by
  unfold stop_listening_to_validator
  split <;> rfl

theorem broadcasts_append (a b : List Event) : broadcasts (a ++ b) = broadcasts a ++ broadcasts b := by
  simp [broadcasts]

theorem handle_validator_message_later (s : Listener) (condition : Nat) (m : List Char)
    (h : s.msg_initialized = true) (hin : condition &&& G_IO_IN ≠ 0) :
    handle_validator_message s condition (some m) =
      Outcome.fault (Fault.invalid_read NLMSG_HDRLEN) := by
  simp only [handle_validator_message, if_pos hin, handle_input_initialized s m h]

/-- The very first `G_IO_IN` callback with a successful receive of a payload
whose text fits the buffer: it returns, and its calls hold exactly one
broadcast, the enter-malfunction message with reason `DSME_MALF_SECURITY`,
the parsed component, and the parsed details as extra of size
`strlen(details) + 1`. -/
theorem handle_validator_message_first (s : Listener) (condition : Nat) (m : List Char)
    (h : s.msg_initialized = false) (hin : condition &&& G_IO_IN ≠ 0)
    (hfit : (m.takeWhile (fun c => c != NUL)).length < VALIDATOR_MAX_PAYLOAD) :
    ∃ (component details : CStr) (s1 : Listener) (ev : List Event) (keep : Bool),
      parse_validator_message (m.takeWhile (fun c => c != NUL)) = some (component, details) ∧
      handle_validator_message s condition (some m) = Outcome.returned (s1, ev, keep) ∧
      s1.msg_initialized = true ∧
      broadcasts ev =
        [Event.broadcast_internally_with_extra
          ⟨DSME_MALF_REASON.DSME_MALF_SECURITY, component⟩ (details.length + 1) details] := by
  obtain ⟨c, d, hp, hi⟩ := handle_input_fresh s m h hfit
  refine ⟨c, d, ?_⟩
  by_cases hup : condition &&& (G_IO_ERR ||| G_IO_HUP) ≠ 0
  · have heq : handle_validator_message s condition (some m) = Outcome.returned
        ((stop_listening_to_validator ⟨s.validator_fd, s.channel, true, recv_into [] m⟩).1,
          [Event.dsme_log LogPriority.LOG_DEBUG "Activity on Validator socket"] ++
            (Event.dsme_log LogPriority.LOG_CRIT "Security MALF: %s %s" :: go_to_malf c d) ++
            [Event.dsme_log LogPriority.LOG_ERR "ERR or HUP on Validator socket"] ++
            (stop_listening_to_validator ⟨s.validator_fd, s.channel, true, recv_into [] m⟩).2,
          false) := by
      simp only [handle_validator_message, if_pos hin, hi, if_pos hup]
    refine ⟨_, _, _, hp, heq, ?_, ?_⟩
    · unfold stop_listening_to_validator
      split <;> rfl
    · simp only [broadcasts_append, broadcasts_stop]
      rfl
  · have heq : handle_validator_message s condition (some m) = Outcome.returned
        (⟨s.validator_fd, s.channel, true, recv_into [] m⟩,
          [Event.dsme_log LogPriority.LOG_DEBUG "Activity on Validator socket"] ++
            (Event.dsme_log LogPriority.LOG_CRIT "Security MALF: %s %s" :: go_to_malf c d),
          true) := by
      simp only [handle_validator_message, if_pos hin, hi, if_neg hup]
    exact ⟨_, _, _, hp, heq, rfl, rfl⟩

/-- The very first callback on a started listener, with the datagram
`Process: evil-binary`, `File: /usr/bin/evil-binary`: one broadcast, with
component `evil-binary` and details `/usr/bin/evil-binary`. -/
theorem handle_validator_message_evil_binary :
    handle_validator_message ⟨3, 7, false, []⟩ G_IO_IN
        (some "Process: evil-binary\nFile: /usr/bin/evil-binary\n".toList) =
      Outcome.returned
        (⟨3, 7, true, "Process: evil-binary\nFile: /usr/bin/evil-binary\n".toList⟩,
          [Event.dsme_log LogPriority.LOG_DEBUG "Activity on Validator socket",
           Event.dsme_log LogPriority.LOG_CRIT "Security MALF: %s %s",
           Event.broadcast_internally_with_extra
             ⟨DSME_MALF_REASON.DSME_MALF_SECURITY, "evil-binary".toList⟩
             21 "/usr/bin/evil-binary".toList],
          true) := by
  decide

/-- Whenever the callback returns from a listening state, it returns false
exactly when it has stopped the listener, which is exactly when the
condition has `G_IO_ERR` or `G_IO_HUP`; otherwise the descriptor and the
channel are as before. -/
theorem handle_validator_message_returned (s s1 : Listener) (condition : Nat)
    (recvmsg : Option (List Char)) (ev : List Event) (keep : Bool)
    (hl : s.validator_fd ≠ -1)
    (h : handle_validator_message s condition recvmsg = Outcome.returned (s1, ev, keep)) :
    (keep = false ↔ (s1.validator_fd = -1 ∧ s1.channel = 0)) ∧
      (keep = false ↔ condition &&& (G_IO_ERR ||| G_IO_HUP) ≠ 0) ∧
      (keep = true → s1.validator_fd = s.validator_fd ∧ s1.channel = s.channel) := by
  have key : ∀ (s2 : Listener) (ev1 : List Event),
      s2.validator_fd = s.validator_fd → s2.channel = s.channel →
      (if condition &&& (G_IO_ERR ||| G_IO_HUP) ≠ 0 then
        Outcome.returned ((stop_listening_to_validator s2).1,
          [Event.dsme_log LogPriority.LOG_DEBUG "Activity on Validator socket"] ++ ev1 ++
            [Event.dsme_log LogPriority.LOG_ERR "ERR or HUP on Validator socket"] ++
            (stop_listening_to_validator s2).2, false)
       else Outcome.returned (s2,
          [Event.dsme_log LogPriority.LOG_DEBUG "Activity on Validator socket"] ++ ev1, true)) =
        Outcome.returned (s1, ev, keep) →
      (keep = false ↔ (s1.validator_fd = -1 ∧ s1.channel = 0)) ∧
        (keep = false ↔ condition &&& (G_IO_ERR ||| G_IO_HUP) ≠ 0) ∧
        (keep = true → s1.validator_fd = s.validator_fd ∧ s1.channel = s.channel) := by
    intro s2 ev1 hfd hch hres
    have hl2 : s2.validator_fd ≠ -1 := by rw [hfd]; exact hl
    by_cases hup : condition &&& (G_IO_ERR ||| G_IO_HUP) ≠ 0
    · rw [if_pos hup] at hres
      injection hres with hres
      injection hres with h1 h2
      injection h2 with h2 h3
      subst h1 h3
      simp [stop_listening_to_validator, hl2, hup]
    · rw [if_neg hup] at hres
      injection hres with hres
      injection hres with h1 h2
      injection h2 with h2 h3
      subst h1 h3
      simp only [hfd, hch, hl, hup, false_and, and_self, iff_self, implies_true, and_true,
        true_and]
      simp
  by_cases hin : condition &&& G_IO_IN ≠ 0
  · cases hi : handle_input s recvmsg with
    | fault f =>
      simp only [handle_validator_message, if_pos hin, hi] at h
      cases h
    | returned r =>
      obtain ⟨s2, ev1⟩ := r
      obtain ⟨h1, h2⟩ := handle_input_state s s2 recvmsg ev1 hi
      simp only [handle_validator_message, if_pos hin, hi] at h
      exact key s2 ev1 h1 h2 h
  · simp only [handle_validator_message, if_neg hin] at h
    exact key s [] rfl rfl h

/-- C5: the first successful receive is not always escalated.  On a
listener that `start_listening_to_validator` has just started, a `G_IO_IN`
callback whose receive fails returns true, broadcasts nothing and leaves the
listener listening; the first callback whose receive succeeds then finds
`msg_initialized` set and its automatic `nlh` null, and for every payload
ends in a read of the invalid address `NLMSG_LENGTH(0)` with no broadcast.
And on the very first callback a payload of `VALIDATOR_MAX_PAYLOAD` bytes or
more without a NUL fills the payload area, so that the parser reads past the
buffer. -/
theorem first_successful_receive_faults :
    (∀ (a : Acquisition) (m : List Char),
      (start_listening_to_validator Listener.initial a).2.2 = true →
      ∃ (s1 : Listener) (ev : List Event),
        handle_validator_message (start_listening_to_validator Listener.initial a).1
          G_IO_IN none = Outcome.returned (s1, ev, true) ∧
        s1.validator_fd = a.socket ∧ s1.validator_fd ≠ -1 ∧ broadcasts ev = [] ∧
        handle_validator_message s1 G_IO_IN (some m) =
          Outcome.fault (Fault.invalid_read NLMSG_HDRLEN)) ∧
    (∀ (s : Listener) (condition : Nat) (m : List Char),
      s.msg_initialized = false → condition &&& G_IO_IN ≠ 0 →
      NUL ∉ m → VALIDATOR_MAX_PAYLOAD ≤ m.length →
      handle_validator_message s condition (some m) =
        Outcome.fault Fault.read_past_buffer) := by
  refine ⟨?_, ?_⟩
  · intro a m hs
    have hg : G_IO_IN &&& G_IO_IN ≠ 0 := by decide
    have hup : ¬ (G_IO_IN &&& (G_IO_ERR ||| G_IO_HUP) ≠ 0) := by decide
    have hall : a.socket ≠ -1 ∧ a.bind ≠ -1 ∧ a.g_io_channel_unix_new ≠ 0 ∧
        a.g_io_add_watch ≠ 0 := by
      revert hs
      unfold start_listening_to_validator
      by_cases h1 : a.socket = -1 <;> by_cases h2 : a.bind = -1 <;>
        by_cases h3 : a.g_io_channel_unix_new = 0 <;> by_cases h4 : a.g_io_add_watch = 0 <;>
        simp [h1, h2, h3, h4]
    obtain ⟨h1, h2, h3, h4⟩ := hall
    have hst : (start_listening_to_validator Listener.initial a).1 =
        ⟨a.socket, a.g_io_channel_unix_new, false, []⟩ := by
      simp [start_listening_to_validator, Listener.initial, h1, h2, h3, h4]
    rw [hst]
    refine ⟨⟨a.socket, a.g_io_channel_unix_new, true, []⟩,
      [Event.dsme_log LogPriority.LOG_DEBUG "Activity on Validator socket",
       Event.dsme_log LogPriority.LOG_ERR "Error receiving Validator message"],
      ?_, rfl, h1, rfl, ?_⟩
    · simp only [handle_validator_message, if_pos hg, if_neg hup, handle_input_failed]
      rfl
    · exact handle_validator_message_later _ _ m rfl hg
  · intro s condition m h hin hn hl
    simp only [handle_validator_message, if_pos hin, handle_input_overrun s m h hn hl]

theorem first_successful_receive_faults_witness :
    ∃ (s1 : Listener) (ev : List Event),
      handle_validator_message (start_listening_to_validator Listener.initial ⟨3, 0, 7, 1⟩).1
        G_IO_IN none = Outcome.returned (s1, ev, true) ∧
      s1.validator_fd = 3 ∧ s1.validator_fd ≠ -1 ∧ broadcasts ev = [] ∧
      handle_validator_message s1 G_IO_IN
          (some "Process: evil-binary\nFile: /usr/bin/evil-binary\n".toList) =
        Outcome.fault (Fault.invalid_read NLMSG_HDRLEN) :=
  first_successful_receive_faults.1 ⟨3, 0, 7, 1⟩
    "Process: evil-binary\nFile: /usr/bin/evil-binary\n".toList (by decide)

/-- C6: the callback does not always return.  On the listener started on
descriptor 3 with channel 7, a first `G_IO_IN` callback whose receive fails
returns true and leaves descriptor and channel alone; the next `G_IO_IN`
callback, whose receive succeeds in the same listening state, hands the
parser `NLMSG_DATA` of a null `nlh` and ends in a read of an invalid address
instead of returning true. -/
theorem callback_faults_when_listening :
    handle_validator_message ⟨3, 7, false, []⟩ G_IO_IN none =
        Outcome.returned (⟨3, 7, true, []⟩,
          [Event.dsme_log LogPriority.LOG_DEBUG "Activity on Validator socket",
           Event.dsme_log LogPriority.LOG_ERR "Error receiving Validator message"], true) ∧
      (⟨3, 7, true, []⟩ : Listener).validator_fd ≠ -1 ∧
      handle_validator_message ⟨3, 7, true, []⟩ G_IO_IN (some "Process: a\nFile: b\n".toList) =
        Outcome.fault (Fault.invalid_read 16) := by
  decide

/-- C7: stopping twice gives the state of stopping once, the second stop
makes no call at all, and a stop with `validator_fd = -1` changes nothing
and makes no call, so no second unref and no second close. -/
theorem stop_idempotent (s : Listener) :
    (stop_listening_to_validator (stop_listening_to_validator s).1).1 =
        (stop_listening_to_validator s).1 ∧
      (stop_listening_to_validator (stop_listening_to_validator s).1).2 = [] ∧
      (s.validator_fd = -1 → stop_listening_to_validator s = (s, [])) := by
  by_cases h : s.validator_fd = -1
  · simp [stop_listening_to_validator, h]
  · simp [stop_listening_to_validator, h]

theorem stop_idempotent_witness :
    stop_listening_to_validator Listener.initial = (Listener.initial, []) :=
  (stop_idempotent Listener.initial).2.2 (by decide)

/-- C8: `start_listening_to_validator` returns true exactly when all four
acquisition steps succeed, and then `validator_fd` is the socket; when a
step fails it returns false with `validator_fd = -1`, having closed the
socket once if it had opened one and not at all otherwise; `module_init`
returns with the state that start left, having made the calls of start and,
besides, only calls to the logger. -/
theorem start_failure_inactive (s : Listener) (a : Acquisition) :
    ((start_listening_to_validator s a).2.2 = true ↔
        (a.socket ≠ -1 ∧ a.bind ≠ -1 ∧ a.g_io_channel_unix_new ≠ 0 ∧ a.g_io_add_watch ≠ 0)) ∧
      (¬ (a.socket ≠ -1 ∧ a.bind ≠ -1 ∧ a.g_io_channel_unix_new ≠ 0 ∧ a.g_io_add_watch ≠ 0) →
        (start_listening_to_validator s a).2.2 = false ∧
        (start_listening_to_validator s a).1.validator_fd = -1 ∧
        closes (start_listening_to_validator s a).2.1 =
          if a.socket = -1 then [] else [Event.close a.socket]) ∧
      ((start_listening_to_validator s a).2.2 = true →
        (start_listening_to_validator s a).1.validator_fd = a.socket ∧
        closes (start_listening_to_validator s a).2.1 = []) ∧
      (module_init s a).1 = (start_listening_to_validator s a).1 ∧
      ∃ logs : List Event,
        (module_init s a).2 =
          Event.dsme_log LogPriority.LOG_DEBUG "validatorlistener.so loaded" ::
            (start_listening_to_validator s a).2.1 ++ logs ∧
        ∀ e ∈ logs, ∃ priority fmt, e = Event.dsme_log priority fmt := by
  refine ⟨?_, ?_, ?_, rfl, ?_⟩
  · unfold start_listening_to_validator
    by_cases h1 : a.socket = -1 <;> by_cases h2 : a.bind = -1 <;>
      by_cases h3 : a.g_io_channel_unix_new = 0 <;> by_cases h4 : a.g_io_add_watch = 0 <;>
      simp [h1, h2, h3, h4]
  · unfold start_listening_to_validator
    by_cases h1 : a.socket = -1 <;> by_cases h2 : a.bind = -1 <;>
      by_cases h3 : a.g_io_channel_unix_new = 0 <;> by_cases h4 : a.g_io_add_watch = 0 <;>
      simp [h1, h2, h3, h4, closes]
  · unfold start_listening_to_validator
    by_cases h1 : a.socket = -1 <;> by_cases h2 : a.bind = -1 <;>
      by_cases h3 : a.g_io_channel_unix_new = 0 <;> by_cases h4 : a.g_io_add_watch = 0 <;>
      simp [h1, h2, h3, h4, closes]
  · refine ⟨if !(start_listening_to_validator s a).2.2 then
        [Event.dsme_log LogPriority.LOG_CRIT "failed to start listening to Validator"]
      else [], ?_, ?_⟩
    · simp [module_init]
    · intro e he
      split at he
      · simp only [List.mem_singleton] at he
        exact ⟨_, _, he⟩
      · simp at he

theorem start_failure_inactive_witness :
    (start_listening_to_validator Listener.initial ⟨3, 0, 7, 0⟩).2.2 = false ∧
      (start_listening_to_validator Listener.initial ⟨3, 0, 7, 0⟩).1.validator_fd = -1 ∧
      closes (start_listening_to_validator Listener.initial ⟨3, 0, 7, 0⟩).2.1 =
        if (3 : Int) = -1 then [] else [Event.close 3] :=
  (start_failure_inactive Listener.initial ⟨3, 0, 7, 0⟩).2.1 (by decide)

/-- C10: the second datagram is not parsed.  From a listener whose receive
buffer has not been set up, a first callback with `G_IO_IN` and a successful
receive of a payload whose text fits the buffer returns and leaves
`msg_initialized` set; a second such callback on the resulting state,
whatever its payload, finds its automatic `nlh` null, does not read the
buffer allocated by the first one, and ends in a read of the invalid address
`NLMSG_LENGTH(0)`, with no parse and no escalation. -/
theorem second_datagram_faults (s : Listener) (c1 c2 : Nat) (m1 m2 : List Char)
    (h : s.msg_initialized = false) (h1 : c1 &&& G_IO_IN ≠ 0) (h2 : c2 &&& G_IO_IN ≠ 0)
    (hfit : (m1.takeWhile (fun c => c != NUL)).length < VALIDATOR_MAX_PAYLOAD) :
    ∃ (s1 : Listener) (ev : List Event) (keep : Bool),
      handle_validator_message s c1 (some m1) = Outcome.returned (s1, ev, keep) ∧
      handle_validator_message s1 c2 (some m2) =
        Outcome.fault (Fault.invalid_read NLMSG_HDRLEN) := by
  obtain ⟨_, _, s1, ev, keep, _, hr, hi, _⟩ :=
    handle_validator_message_first s c1 m1 h h1 hfit
  exact ⟨s1, ev, keep, hr, handle_validator_message_later s1 c2 m2 hi h2⟩

theorem second_datagram_faults_witness :
    ∃ (s1 : Listener) (ev : List Event) (keep : Bool),
      handle_validator_message ⟨3, 7, false, []⟩ G_IO_IN (some "Process: a\n".toList) =
        Outcome.returned (s1, ev, keep) ∧
      handle_validator_message s1 G_IO_IN (some "Process: b\nFile: c\n".toList) =
        Outcome.fault (Fault.invalid_read NLMSG_HDRLEN) :=
  second_datagram_faults ⟨3, 7, false, []⟩ G_IO_IN G_IO_IN "Process: a\n".toList
    "Process: b\nFile: c\n".toList (by decide) (by decide) (by decide) (by decide)

end ValidatorListener
